import Mathlib

/-!
Verification of the gribdownloader program (src/gribdownloader.go).

The Go source is shallowly embedded: pure functions (`parseIDXFile`'s
per-line logic, `generateRanges` with its merge pass, `main`'s total-size
loop) become Lean functions; the effectful orchestration in
`downloadRanges` / `main` is modelled as a pure function from an abstract
per-range fetch outcome (and a pre-allocation success flag) to the ordered
list of file operations performed and the returned result.  Go `int64`
values are modelled as `Int`, with each arithmetic operation of the range
computation that can overflow (`offset - 1` and `offset + 1024*1024` in
`generateRanges`) passed through the explicit two's-complement wrap
`wrapI64`, so the embedding agrees with Go's defined wraparound even at
the `int64` boundary.  The merge pass's `last.End + 1` is left unwrapped:
that expression is evaluated only while a later range still exists, and
then `last.End` is a non-final provisional end, which for the non-negative
offsets the program receives is at most `2^63 - 2`, so the addition cannot
overflow in Go.
-/

/-- Embeds Go struct `GFSParameter` (one parsed idx line).  The Go field
`Type` is renamed `RecType` because `Type` is a Lean keyword. -/
structure GFSParameter where
  Number : Int
  Offset : Int
  Date : String
  Parameter : String
  Level : String
  RecType : String
deriving DecidableEq

/-- Embeds Go struct `RangeDownload` (an inclusive byte range). -/
structure RangeDownload where
  Start : Int
  End : Int
deriving DecidableEq

/-- The request-matching test inlined in the loop of `generateRanges`
(gribdownloader.go lines 118-139): the entry's `Parameter` must be a key of
`requestedParams`, and the associated level list must be empty or contain
the entry's `Level`.  The Go map is modelled as an association list with
`List.lookup` (map keys are unique). -/
def entryRequested (requestedParams : List (String × List String))
    (p : GFSParameter) : Bool :=
  match requestedParams.lookup p.Parameter with
  | none => false
  | some levels => if levels.isEmpty then true else levels.contains p.Level

/-- Two's-complement wraparound of signed 64-bit arithmetic: the unique
value congruent to `x` modulo `2^64` lying in `[-2^63, 2^63)`.  Go's
`int64` addition and subtraction wrap this way on overflow. -/
def wrapI64 (x : Int) : Int :=
  (x + 2 ^ 63) % 2 ^ 64 - 2 ^ 63

/-- The provisional (pre-merge) range list built by the main loop of
`generateRanges` (lines 117-154): for each requested entry, `Start` is its
`Offset` (copied, no arithmetic); `End` is the next entry's `Offset - 1`,
or `Offset + 1024*1024` for the last entry of the whole sequence, both
computed in wrapping `int64` arithmetic as Go does. -/
def provisionalRanges (requestedParams : List (String × List String)) :
    List GFSParameter → List RangeDownload
  | [] => []
  | [p] =>
      if entryRequested requestedParams p then
        [⟨p.Offset, wrapI64 (p.Offset + 1024 * 1024)⟩]
      else []
  | p :: q :: rest =>
      (if entryRequested requestedParams p then
        [⟨p.Offset, wrapI64 (q.Offset - 1)⟩]
      else []) ++ provisionalRanges requestedParams (q :: rest)

/-- The merge loop of `generateRanges` (lines 158-172), with the current
last element of `merged` kept as an explicit accumulator: if the next
range's `Start` is at most `last.End + 1` the last range's `End` is
extended to the max of the two ends, otherwise the next range starts a new
merged range. -/
def mergeAux (last : RangeDownload) : List RangeDownload → List RangeDownload
  | [] => [last]
  | current :: rest =>
      if current.Start ≤ last.End + 1 then
        mergeAux ⟨last.Start,
          if current.End > last.End then current.End else last.End⟩ rest
      else
        last :: mergeAux current rest

/-- The whole merge pass of `generateRanges` (lines 156-173).  The Go guard
`len(ranges) > 1` is subsumed: on `[]` and on a singleton the result equals
the input. -/
def mergeRanges : List RangeDownload → List RangeDownload
  | [] => []
  | r :: rest => mergeAux r rest

/-- The range list returned by `generateRanges` (lines 114-176). -/
def generateRangesList (parameters : List GFSParameter)
    (requestedParams : List (String × List String)) : List RangeDownload :=
  mergeRanges (provisionalRanges requestedParams parameters)

/-- Embeds `generateRanges` with its Go signature: the function has no
failing path, so the error component is always nil (`Except.ok`). -/
def generateRanges (parameters : List GFSParameter)
    (requestedParams : List (String × List String)) :
    Except String (List RangeDownload) :=
  Except.ok (generateRangesList parameters requestedParams)

/-- The total download size accumulated by `main` (lines 330-336):
the sum of `End - Start + 1` over the ranges. -/
def totalSize (ranges : List RangeDownload) : Int :=
  ranges.foldl (fun acc r => acc + (r.End - r.Start + 1)) 0

/-- Embeds Go `strconv.ParseInt(s, 10, 64)` (and `strconv.Atoi` on a 64-bit
platform): an optional sign followed by at least one decimal digit, with
the value required to fit in a signed 64-bit integer; `none` on any other
input. -/
def parseGoInt64 (s : String) : Option Int :=
  match s.toList with
  | [] => none
  | c :: rest =>
      let signed : Int × List Char :=
        if c = '-' then (-1, rest)
        else if c = '+' then (1, rest)
        else (1, c :: rest)
      if signed.2 = [] then none
      else if signed.2.all Char.isDigit then
        let v : Int :=
          signed.1 * Int.ofNat
            (signed.2.foldl (fun a d => a * 10 + (d.toNat - 48)) 0)
        if -(2 ^ 63) ≤ v ∧ v ≤ 2 ^ 63 - 1 then some v else none
      else none

/-- Embeds `strings.TrimPrefix(parts[2], "d=")` from `parseIDXFile`
(line 97). -/
def trimDateLabel (s : String) : String :=
  if s.startsWith "d=" then s.drop 2 else s

/-- The body of the scanner loop of `parseIDXFile` (lines 76-104) for one
line: `none` exactly where the Go code hits a `continue` (fewer than 6
colon-separated fields, or a non-integer first or second field), otherwise
the entry appended for this line. -/
def parseIDXLine (line : String) : Option GFSParameter :=
  match line.splitOn ":" with
  | p0 :: p1 :: p2 :: p3 :: p4 :: p5 :: _ =>
      match parseGoInt64 p0, parseGoInt64 p1 with
      | some number, some offset =>
          some ⟨number, offset, trimDateLabel p2, p3, p4, p5⟩
      | some _, none => none
      | none, _ => none
  | _ => none

/-- The scanner loop of `parseIDXFile` (lines 73-104): walk the lines in
order, appending one entry per line that parses and skipping the rest. -/
def parseIDXFileAux (acc : List GFSParameter) :
    List String → List GFSParameter
  | [] => acc
  | line :: rest =>
      match parseIDXLine line with
      | none => parseIDXFileAux acc rest
      | some p => parseIDXFileAux (acc ++ [p]) rest

/-- Embeds `parseIDXFile` (lines 66-111) on the list of scanned lines.  In
the pure embedding the only error paths (opening the file, a failing
scanner) are I/O-level and absent, so the result is always `Except.ok`. -/
def parseIDXFile (lines : List String) : Except String (List GFSParameter) :=
  Except.ok (parseIDXFileAux [] lines)

/-- Spec-side predicate for C5: the conditions under which the scanner loop
of `parseIDXFile` skips a line. -/
def lineMalformed (line : String) : Prop :=
  (line.splitOn ":").length < 6 ∨
    parseGoInt64 ((line.splitOn ":").getD 0 "") = none ∨
    parseGoInt64 ((line.splitOn ":").getD 1 "") = none

instance (line : String) : Decidable (lineMalformed line) := by
  unfold lineMalformed
  infer_instance

/-- A file operation performed by the download orchestration on the
destination file, in program order. -/
inductive FileOp where
  | truncate (size : Int)
  | write (r : RangeDownload)
deriving DecidableEq

/-- The error returned by the embedded `downloadRanges`: either the
create/pre-allocate step failed (before any task is launched), or some
range fetches failed, reported with their count and per-range detail
(mirroring `fmt.Errorf("encountered %d errors during download: %v", ...)`
and the per-range messages built at line 263). -/
inductive GoDownloadError where
  | preallocateFailed
  | rangesFailed (count : Nat) (failures : List (RangeDownload × String))
  | rangeGenerationFailed
deriving DecidableEq

/-- The concurrent fetch phase of `downloadRanges` (lines 253-275),
linearised in range order (the goroutines are independent: each either
writes its own range under the shared mutex or sends one error to the
channel, and `downloadRanges` joins them all before looking at the
results).  `fetchOutcome r = none` means the fetch of `r` succeeded;
`some msg` abstracts the error `downloadRange` returned for `r`.  Returns
the write operations performed and the collected error list. -/
def runTasks (fetchOutcome : RangeDownload → Option String) :
    List RangeDownload → List FileOp × List (RangeDownload × String)
  | [] => ([], [])
  | r :: rest =>
      let res := runTasks fetchOutcome rest
      match fetchOutcome r with
      | none => (FileOp.write r :: res.1, res.2)
      | some msg => (res.1, (r, msg) :: res.2)

/-- Embeds `downloadRanges` (lines 230-281).  `allocOk` abstracts the
success of the create/truncate pre-allocation step (lines 240-251): when
it fails the function returns before launching any task.  Otherwise the
file is truncated to `maxEnd + 1` bytes (with `maxEnd` the fold of
lines 232-237 starting at 0), all fetch tasks run, and the call fails iff
the collected error list is non-empty, reporting its length and
contents. -/
def downloadRanges (fetchOutcome : RangeDownload → Option String)
    (allocOk : Bool) (ranges : List RangeDownload) :
    List FileOp × Except GoDownloadError Unit :=
  let maxEnd : Int := ranges.foldl (fun m r => if r.End > m then r.End else m) 0
  if allocOk then
    let res := runTasks fetchOutcome ranges
    (FileOp.truncate (maxEnd + 1) :: res.1,
      if 0 < res.2.length then
        Except.error (GoDownloadError.rangesFailed res.2.length res.2)
      else Except.ok ())
  else ([], Except.error GoDownloadError.preallocateFailed)

/-- The ranges written by a list of file operations. -/
def writtenRanges (ops : List FileOp) : List RangeDownload :=
  ops.filterMap fun op =>
    match op with
    | FileOp.write r => some r
    | FileOp.truncate _ => none

/-- The tail of `main` from range generation onwards (lines 322-344):
`generateRanges` is called, and its result is passed to `downloadRanges`
unconditionally — there is no branch on an empty range list. -/
def runMain (fetchOutcome : RangeDownload → Option String) (allocOk : Bool)
    (parameters : List GFSParameter)
    (requestedParams : List (String × List String)) :
    List FileOp × Except GoDownloadError Unit :=
  match generateRanges parameters requestedParams with
  | Except.ok ranges => downloadRanges fetchOutcome allocOk ranges
  | Except.error _ => ([], Except.error GoDownloadError.rangeGenerationFailed)

/-- Spec-side entry access for C4 (a total stand-in for `parameters[i]`,
with a dummy default that index-in-bounds facts make irrelevant). -/
def entryAtD (parameters : List GFSParameter) (i : Nat) : GFSParameter :=
  parameters.getD i ⟨0, 0, "", "", "", ""⟩

/-- Spec-side range formula for C4, following the spec's words: for an
included entry at position `i`, the provisional range is
`[entries[i].byteOffset, entries[i+1].byteOffset - 1]` when a next entry
exists, and `[entries[i].byteOffset, entries[i].byteOffset + 1048576]`
when `i` is the last position.  Both end expressions are the program's
own `int64` computations, so they carry the same two's-complement wrap
as the code side. -/
def rangeAtSpec (parameters : List GFSParameter) (i : Nat) : RangeDownload :=
  ⟨(entryAtD parameters i).Offset,
    if i + 1 < parameters.length then
      wrapI64 ((entryAtD parameters (i + 1)).Offset - 1)
    else wrapI64 ((entryAtD parameters i).Offset + 1024 * 1024)⟩

/-- Spec-side provisional range list for C4: one range per included
position, in position order. -/
def provisionalRangesSpec (requestedParams : List (String × List String))
    (parameters : List GFSParameter) : List RangeDownload :=
  ((List.range parameters.length).filter
      (fun i => entryRequested requestedParams (entryAtD parameters i))).map
    (rangeAtSpec parameters)

/-- The adjacency relation the merged output satisfies: a strict gap
between consecutive ranges, with starts in order. -/
def mergedRel (a b : RangeDownload) : Prop :=
  a.End + 1 < b.Start ∧ a.Start ≤ b.Start

instance : IsTrans RangeDownload mergedRel :=
  ⟨fun _ _ _ hab hbc => ⟨lt_of_lt_of_le hab.1 hbc.2, le_trans hab.2 hbc.2⟩⟩

theorem mergeAux_head (rest : List RangeDownload) :
    ∀ last : RangeDownload,
      ∃ e t, mergeAux last rest = ⟨last.Start, e⟩ :: t ∧ last.End ≤ e := by
  induction rest with
  | nil => exact fun last => ⟨last.End, [], rfl, le_refl _⟩
  | cons c cs ih =>
    intro last
    by_cases h : c.Start ≤ last.End + 1
    · obtain ⟨e, t, heq, hle⟩ :=
        ih ⟨last.Start, if c.End > last.End then c.End else last.End⟩
      refine ⟨e, t, by simp only [mergeAux, if_pos h]; exact heq, ?_⟩
      have hstep : last.End ≤ if c.End > last.End then c.End else last.End := by
        split <;> omega
      exact le_trans hstep hle
    · exact ⟨last.End, mergeAux c cs, by simp only [mergeAux, if_neg h], le_refl _⟩

theorem mergeAux_chain (rest : List RangeDownload) :
    ∀ last : RangeDownload,
      List.Chain' (fun a b : RangeDownload => a.Start ≤ b.Start) (last :: rest) →
      List.Chain' mergedRel (mergeAux last rest) := by
  induction rest with
  | nil => exact fun last _ => List.chain'_singleton last
  | cons c cs ih =>
    intro last hchain
    obtain ⟨hlc, h2⟩ := List.chain'_cons.mp hchain
    by_cases h : c.Start ≤ last.End + 1
    · simp only [mergeAux, if_pos h]
      apply ih
      refine List.chain'_cons'.mpr ⟨?_, (List.chain'_cons'.mp h2).2⟩
      intro y hy
      have hcy := (List.chain'_cons'.mp h2).1 y hy
      exact le_trans hlc hcy
    · simp only [mergeAux, if_neg h]
      obtain ⟨e, t, heq, _⟩ := mergeAux_head cs c
      have htail := ih c h2
      rw [heq] at htail ⊢
      refine List.chain'_cons.mpr ⟨⟨?_, ?_⟩, htail⟩
      · show last.End + 1 < c.Start
        omega
      · exact hlc

theorem mergeAux_coverage (rest : List RangeDownload) :
    ∀ last : RangeDownload,
      List.Chain' (fun a b : RangeDownload => a.Start ≤ b.Start) (last :: rest) →
      ∀ r ∈ last :: rest, ∀ x : Int, r.Start ≤ x → x ≤ r.End →
        ∃ m ∈ mergeAux last rest, m.Start ≤ x ∧ x ≤ m.End := by
  induction rest with
  | nil =>
    intro last _ r hr x hx1 hx2
    rw [List.mem_singleton] at hr
    refine ⟨r, ?_, hx1, hx2⟩
    rw [hr]
    simp [mergeAux]
  | cons c cs ih =>
    intro last hchain r hr x hx1 hx2
    obtain ⟨hlc, h2⟩ := List.chain'_cons.mp hchain
    by_cases h : c.Start ≤ last.End + 1
    · simp only [mergeAux, if_pos h]
      have hnewchain :
          List.Chain' (fun a b : RangeDownload => a.Start ≤ b.Start)
            (⟨last.Start, if c.End > last.End then c.End else last.End⟩ :: cs) := by
        refine List.chain'_cons'.mpr ⟨?_, (List.chain'_cons'.mp h2).2⟩
        intro y hy
        exact le_trans hlc ((List.chain'_cons'.mp h2).1 y hy)
      rcases List.mem_cons.mp hr with heq | hr'
      · refine ih _ hnewchain _ (List.mem_cons_self _ _) x ?_ ?_
        · show (last.Start : Int) ≤ x
          rw [heq] at hx1
          exact hx1
        · show x ≤ if c.End > last.End then c.End else last.End
          rw [heq] at hx2
          split <;> omega
      rcases List.mem_cons.mp hr' with heq | hr''
      · refine ih _ hnewchain _ (List.mem_cons_self _ _) x ?_ ?_
        · show (last.Start : Int) ≤ x
          rw [heq] at hx1
          exact le_trans hlc hx1
        · show x ≤ if c.End > last.End then c.End else last.End
          rw [heq] at hx2
          split <;> omega
      · exact ih _ hnewchain r (List.mem_cons_of_mem _ hr'') x hx1 hx2
    · simp only [mergeAux, if_neg h]
      rcases List.mem_cons.mp hr with heq | hr'
      · refine ⟨last, List.mem_cons_self _ _, ?_, ?_⟩
        · rw [heq] at hx1; exact hx1
        · rw [heq] at hx2; exact hx2
      · obtain ⟨m, hm, hmx⟩ := ih c h2 r hr' x hx1 hx2
        exact ⟨m, List.mem_cons_of_mem _ hm, hmx⟩

theorem mergeAux_start_mem (rest : List RangeDownload) :
    ∀ last : RangeDownload, ∀ m ∈ mergeAux last rest,
      ∃ r ∈ last :: rest, m.Start = r.Start := by
  induction rest with
  | nil =>
    intro last m hm
    simp only [mergeAux, List.mem_singleton] at hm
    exact ⟨last, List.mem_cons_self _ _, by rw [hm]⟩
  | cons c cs ih =>
    intro last m hm
    by_cases h : c.Start ≤ last.End + 1
    · simp only [mergeAux, if_pos h] at hm
      obtain ⟨r, hr, hmr⟩ := ih _ m hm
      rcases List.mem_cons.mp hr with heq | hr'
      · refine ⟨last, List.mem_cons_self _ _, ?_⟩
        rw [hmr, heq]
      · exact ⟨r, List.mem_cons_of_mem _ (List.mem_cons_of_mem _ hr'), hmr⟩
    · simp only [mergeAux, if_neg h] at hm
      rcases List.mem_cons.mp hm with heq | hm'
      · exact ⟨last, List.mem_cons_self _ _, by rw [heq]⟩
      · obtain ⟨r, hr, hmr⟩ := ih c m hm'
        exact ⟨r, List.mem_cons_of_mem _ hr, hmr⟩

theorem mergeAux_valid (rest : List RangeDownload) :
    ∀ last : RangeDownload,
      (∀ r ∈ last :: rest, r.Start ≤ r.End) →
      ∀ m ∈ mergeAux last rest, m.Start ≤ m.End := by
  induction rest with
  | nil =>
    intro last hall m hm
    simp only [mergeAux, List.mem_singleton] at hm
    rw [hm]
    exact hall last (List.mem_cons_self _ _)
  | cons c cs ih =>
    intro last hall m hm
    by_cases h : c.Start ≤ last.End + 1
    · simp only [mergeAux, if_pos h] at hm
      refine ih _ ?_ m hm
      intro r hr
      rcases List.mem_cons.mp hr with heq | hr'
      · rw [heq]
        show (last.Start : Int) ≤ if c.End > last.End then c.End else last.End
        have := hall last (List.mem_cons_self _ _)
        split <;> omega
      · exact hall r (List.mem_cons_of_mem _ (List.mem_cons_of_mem _ hr'))
    · simp only [mergeAux, if_neg h] at hm
      rcases List.mem_cons.mp hm with heq | hm'
      · rw [heq]
        exact hall last (List.mem_cons_self _ _)
      · refine ih c ?_ m hm'
        intro r hr
        exact hall r (List.mem_cons_of_mem _ hr)

theorem mergeAux_idem (rest : List RangeDownload) :
    ∀ last : RangeDownload,
      List.Chain' (fun a b : RangeDownload => a.End + 1 < b.Start) (last :: rest) →
      mergeAux last rest = last :: rest := by
  induction rest with
  | nil => intro last _; simp [mergeAux]
  | cons c cs ih =>
    intro last hchain
    obtain ⟨hlc, h2⟩ := List.chain'_cons.mp hchain
    have h : ¬ c.Start ≤ last.End + 1 := by omega
    simp only [mergeAux, if_neg h]
    rw [ih c h2]

theorem mergeRanges_chain (l : List RangeDownload)
    (h : List.Chain' (fun a b : RangeDownload => a.Start ≤ b.Start) l) :
    List.Chain' mergedRel (mergeRanges l) := by
  cases l with
  | nil => simp [mergeRanges]
  | cons r rest => exact mergeAux_chain rest r h

theorem mergeRanges_coverage (l : List RangeDownload)
    (h : List.Chain' (fun a b : RangeDownload => a.Start ≤ b.Start) l)
    (r : RangeDownload) (hr : r ∈ l) (x : Int) (hx1 : r.Start ≤ x)
    (hx2 : x ≤ r.End) :
    ∃ m ∈ mergeRanges l, m.Start ≤ x ∧ x ≤ m.End := by
  cases l with
  | nil => cases hr
  | cons a rest => exact mergeAux_coverage rest a h r hr x hx1 hx2

theorem mergeRanges_start_mem (l : List RangeDownload) (m : RangeDownload)
    (hm : m ∈ mergeRanges l) : ∃ r ∈ l, m.Start = r.Start := by
  cases l with
  | nil => cases hm
  | cons a rest => exact mergeAux_start_mem rest a m hm

theorem mergeRanges_valid (l : List RangeDownload)
    (hall : ∀ r ∈ l, r.Start ≤ r.End) (m : RangeDownload)
    (hm : m ∈ mergeRanges l) : m.Start ≤ m.End := by
  cases l with
  | nil => cases hm
  | cons a rest => exact mergeAux_valid rest a hall m hm

theorem mergeRanges_idem (l : List RangeDownload)
    (h : List.Chain' (fun a b : RangeDownload => a.End + 1 < b.Start) l) :
    mergeRanges l = l := by
  cases l with
  | nil => rfl
  | cons a rest => exact mergeAux_idem rest a h

theorem mergedRel_pairwise (l : List RangeDownload)
    (h : List.Chain' mergedRel l) : List.Pairwise mergedRel l :=
  List.chain'_iff_pairwise.mp h

theorem countP_mem_eq_one (x : Int) :
    ∀ l : List RangeDownload, List.Pairwise mergedRel l →
      (∃ m ∈ l, m.Start ≤ x ∧ x ≤ m.End) →
      l.countP (fun r => decide (r.Start ≤ x ∧ x ≤ r.End)) = 1 := by
  intro l
  induction l with
  | nil => intro _ hex; obtain ⟨m, hm, _⟩ := hex; cases hm
  | cons a t ih =>
    intro hpw hex
    obtain ⟨hforall, ht⟩ := List.pairwise_cons.mp hpw
    by_cases hx : a.Start ≤ x ∧ x ≤ a.End
    · rw [List.countP_cons_of_pos _ _ (by simpa using hx)]
      have hzero : t.countP (fun r => decide (r.Start ≤ x ∧ x ≤ r.End)) = 0 := by
        rw [List.countP_eq_zero]
        intro b hb
        have := (hforall b hb).1
        simp only [decide_eq_true_eq]
        omega
      rw [hzero]
    · rw [List.countP_cons_of_neg _ _ (by simpa using hx)]
      refine ih ht ?_
      obtain ⟨m, hm, hmx⟩ := hex
      rcases List.mem_cons.mp hm with heq | hm'
      · rw [heq] at hmx
        exact absurd hmx hx
      · exact ⟨m, hm', hmx⟩

theorem provisionalRanges_start_lb
    (requestedParams : List (String × List String)) :
    ∀ params : List GFSParameter,
      List.Chain' (fun a b : GFSParameter => a.Offset ≤ b.Offset) params →
      ∀ p, params.head? = some p →
      ∀ r ∈ provisionalRanges requestedParams params, p.Offset ≤ r.Start := by
  intro params
  induction params with
  | nil => intro _ p hp; cases hp
  | cons a ps ih =>
    intro hchain p hp r hr
    have hpa : p = a := by
      simp only [List.head?_cons, Option.some.injEq] at hp
      exact hp.symm
    cases ps with
    | nil =>
      simp only [provisionalRanges] at hr
      split at hr
      · rw [List.mem_singleton] at hr
        rw [hpa, hr]
      · cases hr
    | cons q rest =>
      simp only [provisionalRanges] at hr
      rcases List.mem_append.mp hr with hl | hrr
      · split at hl
        · rw [List.mem_singleton] at hl
          rw [hpa, hl]
        · cases hl
      · obtain ⟨haq, h2⟩ := List.chain'_cons.mp hchain
        have := ih h2 q rfl r hrr
        rw [hpa]
        omega

theorem provisionalRanges_chain
    (requestedParams : List (String × List String)) :
    ∀ params : List GFSParameter,
      List.Chain' (fun a b : GFSParameter => a.Offset ≤ b.Offset) params →
      List.Chain' (fun a b : RangeDownload => a.Start ≤ b.Start)
        (provisionalRanges requestedParams params) := by
  intro params
  induction params with
  | nil => intro _; simp [provisionalRanges]
  | cons a ps ih =>
    intro hchain
    cases ps with
    | nil =>
      simp only [provisionalRanges]
      split
      · exact List.chain'_singleton _
      · exact List.chain'_nil
    | cons q rest =>
      obtain ⟨haq, h2⟩ := List.chain'_cons.mp hchain
      have hsub := ih h2
      simp only [provisionalRanges]
      split
      · rw [List.singleton_append]
        refine List.chain'_cons'.mpr ⟨?_, hsub⟩
        intro y hy
        have hym := List.mem_of_mem_head? hy
        have := provisionalRanges_start_lb requestedParams (q :: rest) h2 q rfl y hym
        show a.Offset ≤ y.Start
        omega
      · rw [List.nil_append]
        exact hsub

theorem wrapI64_eq_self (x : Int) (h1 : -(2 ^ 63) ≤ x) (h2 : x ≤ 2 ^ 63 - 1) :
    wrapI64 x = x := by
  unfold wrapI64
  have h64 : (2 : Int) ^ 64 = 18446744073709551616 := by norm_num
  have h63 : (2 : Int) ^ 63 = 9223372036854775808 := by norm_num
  rw [h64, h63]
  rw [h63] at h1 h2
  omega

theorem provisionalRanges_valid
    (requestedParams : List (String × List String)) :
    ∀ params : List GFSParameter,
      (∀ p ∈ params, 0 ≤ p.Offset) →
      (∀ p ∈ params, p.Offset ≤ 2 ^ 63 - 1 - 1024 * 1024) →
      List.Chain' (fun a b : GFSParameter => a.Offset < b.Offset) params →
      ∀ r ∈ provisionalRanges requestedParams params, r.Start ≤ r.End := by
  intro params
  induction params with
  | nil => intro _ _ _ r hr; cases hr
  | cons a ps ih =>
    intro hnn hbound hchain r hr
    cases ps with
    | nil =>
      simp only [provisionalRanges] at hr
      split at hr
      · rw [List.mem_singleton] at hr
        rw [hr]
        show a.Offset ≤ wrapI64 (a.Offset + 1024 * 1024)
        have ha1 := hnn a (List.mem_cons_self _ _)
        have ha2 := hbound a (List.mem_cons_self _ _)
        rw [wrapI64_eq_self _ (by omega) (by omega)]
        omega
      · cases hr
    | cons q rest =>
      obtain ⟨haq, h2⟩ := List.chain'_cons.mp hchain
      simp only [provisionalRanges] at hr
      rcases List.mem_append.mp hr with hl | hrr
      · split at hl
        · rw [List.mem_singleton] at hl
          rw [hl]
          show a.Offset ≤ wrapI64 (q.Offset - 1)
          have hq1 := hnn q (List.mem_cons_of_mem _ (List.mem_cons_self _ _))
          have hq2 := hbound q (List.mem_cons_of_mem _ (List.mem_cons_self _ _))
          rw [wrapI64_eq_self _ (by omega) (by omega)]
          omega
        · cases hl
      · exact ih (fun p hp => hnn p (List.mem_cons_of_mem _ hp))
          (fun p hp => hbound p (List.mem_cons_of_mem _ hp)) h2 r hrr

theorem provisionalRanges_start_offset
    (requestedParams : List (String × List String)) :
    ∀ params : List GFSParameter,
      ∀ r ∈ provisionalRanges requestedParams params,
        ∃ p ∈ params, r.Start = p.Offset := by
  intro params
  induction params with
  | nil => intro r hr; cases hr
  | cons a ps ih =>
    intro r hr
    cases ps with
    | nil =>
      simp only [provisionalRanges] at hr
      split at hr
      · rw [List.mem_singleton] at hr
        exact ⟨a, List.mem_cons_self _ _, by rw [hr]⟩
      · cases hr
    | cons q rest =>
      simp only [provisionalRanges] at hr
      rcases List.mem_append.mp hr with hl | hrr
      · split at hl
        · rw [List.mem_singleton] at hl
          exact ⟨a, List.mem_cons_self _ _, by rw [hl]⟩
        · cases hl
      · obtain ⟨p, hp, hps⟩ := ih r hrr
        exact ⟨p, List.mem_cons_of_mem _ hp, hps⟩

theorem provisionalRanges_nil_of_unmatched
    (requestedParams : List (String × List String)) :
    ∀ params : List GFSParameter,
      (∀ p ∈ params, entryRequested requestedParams p = false) →
      provisionalRanges requestedParams params = [] := by
  intro params
  induction params with
  | nil => intro _; rfl
  | cons a ps ih =>
    intro hall
    have ha : entryRequested requestedParams a = false :=
      hall a (List.mem_cons_self _ _)
    cases ps with
    | nil => simp [provisionalRanges, ha]
    | cons q rest =>
      have htail := ih fun p hp => hall p (List.mem_cons_of_mem _ hp)
      simp [provisionalRanges, ha, htail]

theorem entryAtD_zero (a : GFSParameter) (ps : List GFSParameter) :
    entryAtD (a :: ps) 0 = a := rfl

theorem entryAtD_cons_succ (a : GFSParameter) (ps : List GFSParameter) (i : Nat) :
    entryAtD (a :: ps) (i + 1) = entryAtD ps i := by
  simp [entryAtD]

theorem rangeAtSpec_cons (a : GFSParameter) (ps : List GFSParameter) (i : Nat) :
    rangeAtSpec (a :: ps) (i + 1) = rangeAtSpec ps i := by
  simp only [rangeAtSpec, entryAtD_cons_succ, List.length_cons]
  by_cases h : i + 1 < ps.length
  · rw [if_pos (by omega), if_pos h]
  · rw [if_neg (by omega), if_neg h]

theorem rangeAtSpec_zero_cons (a q : GFSParameter) (rest : List GFSParameter) :
    rangeAtSpec (a :: q :: rest) 0 = ⟨a.Offset, wrapI64 (q.Offset - 1)⟩ := by
  simp only [rangeAtSpec, List.length_cons]
  rw [if_pos (by omega)]
  rfl

theorem provisionalRangesSpec_cons (req : List (String × List String))
    (a q : GFSParameter) (rest : List GFSParameter) :
    provisionalRangesSpec req (a :: q :: rest)
      = (if entryRequested req a then [⟨a.Offset, wrapI64 (q.Offset - 1)⟩] else [])
        ++ provisionalRangesSpec req (q :: rest) := by
  unfold provisionalRangesSpec
  rw [List.length_cons, List.range_succ_eq_map, List.filter_cons]
  cases hreq : entryRequested req a
  · rw [entryAtD_zero, hreq]
    simp only [Bool.false_eq_true, if_false, List.filter_map, List.map_map,
      Function.comp_def, Nat.succ_eq_add_one, entryAtD_cons_succ, rangeAtSpec_cons,
      List.nil_append]
  · rw [entryAtD_zero, hreq]
    simp only [if_true, List.filter_map, List.map_cons, List.map_map,
      Function.comp_def, Nat.succ_eq_add_one, entryAtD_cons_succ, rangeAtSpec_cons,
      rangeAtSpec_zero_cons, List.singleton_append]

theorem provisionalRanges_eq_spec (req : List (String × List String)) :
    ∀ params : List GFSParameter,
      provisionalRanges req params = provisionalRangesSpec req params := by
  intro params
  induction params with
  | nil => rfl
  | cons a ps ih =>
    cases ps with
    | nil =>
      cases hreq : entryRequested req a <;>
        simp [provisionalRanges, provisionalRangesSpec, rangeAtSpec, entryAtD,
          hreq, List.range_succ]
    | cons q rest =>
      rw [provisionalRanges, ih, provisionalRangesSpec_cons]

theorem entryRequested_iff (req : List (String × List String))
    (p : GFSParameter) :
    entryRequested req p = true ↔
      ∃ levels, req.lookup p.Parameter = some levels ∧
        (levels = [] ∨ p.Level ∈ levels) := by
  unfold entryRequested
  cases hl : req.lookup p.Parameter with
  | none => simp
  | some levels =>
    simp only [Option.some.injEq]
    constructor
    · intro h
      refine ⟨levels, rfl, ?_⟩
      by_cases he : levels.isEmpty
      · exact Or.inl (List.isEmpty_iff.mp he)
      · rw [if_neg he] at h
        exact Or.inr (List.elem_iff.mp h)
    · rintro ⟨l2, hl2, hcase⟩
      subst hl2
      rcases hcase with hnil | hmem
      · rw [if_pos (by rw [hnil]; rfl)]
      · by_cases he : List.isEmpty levels
        · rw [if_pos he]
        · rw [if_neg he]
          exact List.elem_iff.mpr hmem

theorem parseIDXFileAux_eq (lines : List String) :
    ∀ acc : List GFSParameter,
      parseIDXFileAux acc lines = acc ++ lines.filterMap parseIDXLine := by
  induction lines with
  | nil => intro acc; simp [parseIDXFileAux]
  | cons l ls ih =>
    intro acc
    cases h : parseIDXLine l with
    | none => simp [parseIDXFileAux, h, ih]
    | some p => simp [parseIDXFileAux, h, ih]

theorem parseIDXLine_none_iff (line : String) :
    parseIDXLine line = none ↔ lineMalformed line := by
  unfold parseIDXLine lineMalformed
  rcases hps : line.splitOn ":" with _ | ⟨p0, _ | ⟨p1, _ | ⟨p2, _ | ⟨p3, _ | ⟨p4, _ | ⟨p5, restl⟩⟩⟩⟩⟩⟩ <;>
    simp only [List.length_nil, List.length_cons, List.getD, List.get?, Option.getD] <;>
    try simp
  cases hp0 : parseGoInt64 p0 <;> cases hp1 : parseGoInt64 p1 <;> simp
theorem runTasks_fst (fetchOutcome : RangeDownload → Option String) :
    ∀ rs : List RangeDownload,
      (runTasks fetchOutcome rs).1
        = (rs.filter (fun r => (fetchOutcome r).isNone)).map FileOp.write := by
  intro rs
  induction rs with
  | nil => rfl
  | cons r rest ih =>
    cases h : fetchOutcome r with
    | none => simp [runTasks, h, ih, List.filter_cons]
    | some msg => simp [runTasks, h, ih, List.filter_cons]

theorem runTasks_snd_map (fetchOutcome : RangeDownload → Option String) :
    ∀ rs : List RangeDownload,
      (runTasks fetchOutcome rs).2.map Prod.fst
        = rs.filter (fun r => (fetchOutcome r).isSome) := by
  intro rs
  induction rs with
  | nil => rfl
  | cons r rest ih =>
    cases h : fetchOutcome r with
    | none => simp [runTasks, h, ih, List.filter_cons]
    | some msg => simp [runTasks, h, ih, List.filter_cons]

theorem runTasks_snd_nil_iff (fetchOutcome : RangeDownload → Option String) :
    ∀ rs : List RangeDownload,
      (runTasks fetchOutcome rs).2 = [] ↔ ∀ r ∈ rs, fetchOutcome r = none := by
  intro rs
  induction rs with
  | nil => simp [runTasks]
  | cons r rest ih =>
    cases h : fetchOutcome r with
    | none => simp [runTasks, h, ih]
    | some msg => simp [runTasks, h]

theorem foldl_maxEnd_spec :
    ∀ (ranges : List RangeDownload) (acc : Int),
      acc ≤ ranges.foldl (fun m r => if r.End > m then r.End else m) acc ∧
      (∀ r ∈ ranges,
        r.End ≤ ranges.foldl (fun m r => if r.End > m then r.End else m) acc) ∧
      (ranges.foldl (fun m r => if r.End > m then r.End else m) acc = acc ∨
        ∃ r ∈ ranges,
          ranges.foldl (fun m r => if r.End > m then r.End else m) acc = r.End) := by
  intro ranges
  induction ranges with
  | nil => intro acc; exact ⟨le_refl _, fun r hr => absurd hr (List.not_mem_nil r), Or.inl rfl⟩
  | cons r rest ih =>
    intro acc
    rw [List.foldl_cons]
    obtain ⟨h1, h2, h3⟩ := ih (if r.End > acc then r.End else acc)
    refine ⟨?_, ?_, ?_⟩
    · refine le_trans ?_ h1
      split <;> omega
    · intro s hs
      rcases List.mem_cons.mp hs with heq | hs'
      · rw [heq]
        refine le_trans ?_ h1
        split <;> omega
      · exact h2 s hs'
    · rcases h3 with h3 | ⟨s, hs, h3⟩
      · by_cases hgt : r.End > acc
        · rw [if_pos hgt] at h3 ⊢
          exact Or.inr ⟨r, List.mem_cons_self _ _, h3⟩
        · rw [if_neg hgt] at h3 ⊢
          exact Or.inl h3
      · exact Or.inr ⟨s, List.mem_cons_of_mem _ hs, h3⟩


theorem writtenRanges_map_write (l : List RangeDownload) :
    writtenRanges (l.map FileOp.write) = l := by
  induction l with
  | nil => rfl
  | cons r t ih => simp only [List.map_cons, writtenRanges, List.filterMap_cons] at ih ⊢; rw [ih]

/-- Claim C3 counterexample: the claim fails on two admissible inputs.
First, the index invariant admits equal consecutive offsets
(non-decreasing, not strictly increasing), and an included entry whose
successor has the same offset yields the output range `[5, 4]` with
`Start > End`.  Second, Go's `int64` addition wraps: a matched last entry
at offset `2^63 - 1` (non-negative, strictly increasing, accepted by
`ParseInt`) gets `End = wrap(offset + 1048576)`, which is negative, so
`Start <= End` fails even with strictly increasing offsets. -/
theorem generateRanges_degenerate_range :
    (List.Chain' (fun a b : GFSParameter => a.Offset ≤ b.Offset)
        ([⟨1, 5, "d", "A", "sfc", "t"⟩, ⟨2, 5, "d", "B", "sfc", "t"⟩] :
          List GFSParameter) ∧
      (∀ p ∈ ([⟨1, 5, "d", "A", "sfc", "t"⟩, ⟨2, 5, "d", "B", "sfc", "t"⟩] :
          List GFSParameter), 0 ≤ p.Offset) ∧
      generateRangesList
        ([⟨1, 5, "d", "A", "sfc", "t"⟩, ⟨2, 5, "d", "B", "sfc", "t"⟩] :
          List GFSParameter)
        [("A", [])] = [⟨5, 4⟩] ∧
      ¬ (∀ r ∈ generateRangesList
          ([⟨1, 5, "d", "A", "sfc", "t"⟩, ⟨2, 5, "d", "B", "sfc", "t"⟩] :
            List GFSParameter)
          [("A", [])], 0 ≤ r.Start ∧ r.Start ≤ r.End)) ∧
    (List.Chain' (fun a b : GFSParameter => a.Offset < b.Offset)
        ([⟨1, 9223372036854775807, "d", "A", "sfc", "t"⟩] :
          List GFSParameter) ∧
      (∀ p ∈ ([⟨1, 9223372036854775807, "d", "A", "sfc", "t"⟩] :
          List GFSParameter), 0 ≤ p.Offset) ∧
      generateRangesList
        ([⟨1, 9223372036854775807, "d", "A", "sfc", "t"⟩] :
          List GFSParameter)
        [("A", [])] = [⟨9223372036854775807, -9223372036853727233⟩] ∧
      ¬ (∀ r ∈ generateRangesList
          ([⟨1, 9223372036854775807, "d", "A", "sfc", "t"⟩] :
            List GFSParameter)
          [("A", [])], 0 ≤ r.Start ∧ r.Start ≤ r.End)) := by
  refine ⟨⟨List.chain'_cons.mpr ⟨by decide, List.chain'_singleton _⟩,
      by decide, by decide, ?_⟩,
    List.chain'_singleton _, by decide, by decide, ?_⟩
  · intro h
    have := h ⟨5, 4⟩ (by decide)
    exact absurd this.2 (by decide)
  · intro h
    have := h ⟨9223372036854775807, -9223372036853727233⟩ (by decide)
    exact absurd this.2 (by decide)

/-- Claim C3 (amended: with byte offsets non-negative, strictly
increasing, and at most `2^63 - 1 - 1048576` — merely non-decreasing
offsets admit an equal-offset pair that yields `Start > End`, and an
offset within 1MiB of the `int64` maximum makes the last entry's wrapped
`End` negative): every range produced by `generateRanges` satisfies
`Start <= End` and `Start >= 0`. -/
theorem generateRanges_range_bounds
    (params : List GFSParameter) (req : List (String × List String))
    (hnn : ∀ p ∈ params, 0 ≤ p.Offset)
    (hbound : ∀ p ∈ params, p.Offset ≤ 2 ^ 63 - 1 - 1024 * 1024)
    (hstrict : List.Chain' (fun a b : GFSParameter => a.Offset < b.Offset) params) :
    ∀ r ∈ generateRangesList params req, 0 ≤ r.Start ∧ r.Start ≤ r.End := by
  intro r hr
  have hmono : List.Chain' (fun a b : GFSParameter => a.Offset ≤ b.Offset) params :=
    List.Chain'.imp (fun a b h => le_of_lt h) hstrict
  constructor
  · obtain ⟨r0, hr0, hs⟩ := mergeRanges_start_mem _ r hr
    obtain ⟨p, hp, hps⟩ := provisionalRanges_start_offset req params r0 hr0
    rw [hs, hps]
    exact hnn p hp
  · exact mergeRanges_valid _
      (provisionalRanges_valid req params hnn hbound hstrict) r hr

theorem generateRanges_range_bounds_witness :
    0 ≤ (⟨0, 99⟩ : RangeDownload).Start ∧
    (⟨0, 99⟩ : RangeDownload).Start ≤ (⟨0, 99⟩ : RangeDownload).End :=
  generateRanges_range_bounds
    ([⟨1, 0, "d", "A", "sfc", "t"⟩, ⟨2, 100, "d", "B", "sfc", "t"⟩,
      ⟨3, 300, "d", "A", "sfc", "t"⟩] : List GFSParameter)
    [("A", [])] (by decide) (by decide)
    (List.chain'_cons.mpr ⟨by decide,
      List.chain'_cons.mpr ⟨by decide, List.chain'_singleton _⟩⟩)
    ⟨0, 99⟩ (by decide)

/-- Claim C4: `generateRanges` includes an entry in the provisional range
list iff its `Parameter` is a key of the request and the associated level
list is empty or contains the entry's `Level`; the provisional range of an
included entry at position `i` is `[offset_i, offset_{i+1} - 1]` when a
next entry exists and `[offset_i, offset_i + 1048576]` for the last
entry. -/
theorem provisionalRanges_characterisation
    (params : List GFSParameter) (req : List (String × List String)) :
    (∀ p : GFSParameter, entryRequested req p = true ↔
        ∃ levels, req.lookup p.Parameter = some levels ∧
          (levels = [] ∨ p.Level ∈ levels)) ∧
    provisionalRanges req params = provisionalRangesSpec req params :=
  ⟨fun p => entryRequested_iff req p, provisionalRanges_eq_spec req params⟩

/-- Claim C5: `parseIDXFile` produces exactly one entry per well-formed
line, in input order, skips every line with fewer than 6 colon-separated
fields or a non-integer first or second field, and raises no error for
such a line. -/
theorem parseIDXFile_skips_malformed_in_order (lines : List String) :
    parseIDXFile lines = Except.ok (lines.filterMap parseIDXLine) ∧
    ∀ line : String, parseIDXLine line = none ↔ lineMalformed line := by
  refine ⟨?_, parseIDXLine_none_iff⟩
  unfold parseIDXFile
  rw [parseIDXFileAux_eq lines [], List.nil_append]

/-- Claim C9: on the three-entry index with offsets 0, 1000, 2500 and the
request selecting all levels of parameter A, `generateRanges` returns
exactly `[0, 999]` and `[2500, 2500 + 1048576]` in that order with a nil
error, the merge leaves this pair unchanged, and the total size is
`1000 + 1048577`. -/
theorem generateRanges_concrete_scenario :
    generateRanges
        ([⟨1, 0, "2024", "A", "sfc", "fc"⟩, ⟨2, 1000, "2024", "B", "sfc", "fc"⟩,
          ⟨3, 2500, "2024", "A", "850mb", "fc"⟩] : List GFSParameter)
        [("A", [])]
      = Except.ok [⟨0, 999⟩, ⟨2500, 2500 + 1048576⟩] ∧
    mergeRanges [⟨0, 999⟩, ⟨2500, 2500 + 1048576⟩]
      = [⟨0, 999⟩, ⟨2500, 2500 + 1048576⟩] ∧
    totalSize [⟨0, 999⟩, ⟨2500, 2500 + 1048576⟩] = 1000 + 1048577 :=
  ⟨congrArg Except.ok (by decide), by decide, by decide⟩

/-- Claim C8: a request matching no entry yields an empty range list with
a nil error and total size 0. -/
theorem generateRanges_unmatched_empty_ok
    (params : List GFSParameter) (req : List (String × List String))
    (hnone : ∀ p ∈ params, entryRequested req p = false) :
    generateRanges params req = Except.ok [] ∧
    totalSize (generateRangesList params req) = 0 := by
  have hempty : generateRangesList params req = [] := by
    unfold generateRangesList
    rw [provisionalRanges_nil_of_unmatched req params hnone]
    rfl
  constructor
  · unfold generateRanges
    rw [hempty]
  · rw [hempty]
    rfl

theorem generateRanges_unmatched_empty_ok_witness :
    generateRanges ([⟨1, 0, "d", "X", "sfc", "t"⟩] : List GFSParameter)
        [("A", ["sfc"])] = Except.ok [] ∧
    totalSize (generateRangesList
        ([⟨1, 0, "d", "X", "sfc", "t"⟩] : List GFSParameter)
        [("A", ["sfc"])]) = 0 :=
  generateRanges_unmatched_empty_ok _ _ (by decide)

/-- Claim C10: `downloadRanges` on an empty range list still truncates the
destination file, to exactly `maxEnd + 1 = 1` byte, launches no fetch
task, and returns success; and `main` (which calls `downloadRanges`
unconditionally after `generateRanges`) therefore produces exactly that
behaviour on a request matching no entry. -/
theorem runMain_empty_plan_one_byte
    (fetchOutcome : RangeDownload → Option String)
    (params : List GFSParameter) (req : List (String × List String))
    (hnone : ∀ p ∈ params, entryRequested req p = false) :
    downloadRanges fetchOutcome true [] = ([FileOp.truncate 1], Except.ok ()) ∧
    runMain fetchOutcome true params req
      = ([FileOp.truncate 1], Except.ok ()) := by
  have hempty : generateRangesList params req = [] := by
    unfold generateRangesList
    rw [provisionalRanges_nil_of_unmatched req params hnone]
    rfl
  refine ⟨rfl, ?_⟩
  simp only [runMain, generateRanges, hempty]
  rfl

theorem runMain_empty_plan_one_byte_witness :
    downloadRanges (fun _ => none) true [] = ([FileOp.truncate 1], Except.ok ()) ∧
    runMain (fun _ => none) true ([⟨1, 0, "d", "X", "sfc", "t"⟩] : List GFSParameter)
        [("B", [])] = ([FileOp.truncate 1], Except.ok ()) :=
  runMain_empty_plan_one_byte _ _ _ (by decide)

theorem writtenRanges_truncate_cons (s : Int) (ops : List FileOp) :
    writtenRanges (FileOp.truncate s :: ops) = writtenRanges ops := rfl

/-- Claim C6: in `downloadRanges` every per-range fetch contributes its
outcome independently of sibling failures: the written ranges are exactly
the successful ones (no rollback), the call succeeds iff no fetch failed,
and a failure reports exactly the count and the per-range details of all
failed ranges. -/
theorem downloadRanges_best_effort_aggregation
    (fetchOutcome : RangeDownload → Option String)
    (ranges : List RangeDownload) :
    writtenRanges (downloadRanges fetchOutcome true ranges).1
      = ranges.filter (fun r => (fetchOutcome r).isNone) ∧
    ((downloadRanges fetchOutcome true ranges).2 = Except.ok () ↔
      ∀ r ∈ ranges, fetchOutcome r = none) ∧
    ∀ (c : Nat) (failures : List (RangeDownload × String)),
      (downloadRanges fetchOutcome true ranges).2
          = Except.error (GoDownloadError.rangesFailed c failures) →
        c = (ranges.filter (fun r => (fetchOutcome r).isSome)).length ∧
        failures.map Prod.fst
          = ranges.filter (fun r => (fetchOutcome r).isSome) := by
  have hfst : (downloadRanges fetchOutcome true ranges).1
      = FileOp.truncate
          (ranges.foldl (fun m r => if r.End > m then r.End else m) 0 + 1)
        :: (runTasks fetchOutcome ranges).1 := rfl
  have hsnd : (downloadRanges fetchOutcome true ranges).2
      = if 0 < (runTasks fetchOutcome ranges).2.length then
          Except.error (GoDownloadError.rangesFailed
            (runTasks fetchOutcome ranges).2.length
            (runTasks fetchOutcome ranges).2)
        else Except.ok () := rfl
  refine ⟨?_, ?_, ?_⟩
  · rw [hfst, writtenRanges_truncate_cons, runTasks_fst, writtenRanges_map_write]
  · rw [hsnd]
    by_cases hlen : 0 < (runTasks fetchOutcome ranges).2.length
    · rw [if_pos hlen]
      constructor
      · intro h
        exact absurd h (by simp)
      · intro hall
        have hnil := (runTasks_snd_nil_iff fetchOutcome ranges).mpr hall
        rw [hnil] at hlen
        exact absurd hlen (by simp)
    · rw [if_neg hlen]
      have hnil : (runTasks fetchOutcome ranges).2 = [] := by
        cases hE : (runTasks fetchOutcome ranges).2 with
        | nil => rfl
        | cons a t =>
          rw [hE] at hlen
          exact absurd (by simp) hlen
      exact ⟨fun _ => (runTasks_snd_nil_iff fetchOutcome ranges).mp hnil,
        fun _ => rfl⟩
  · intro c failures h
    rw [hsnd] at h
    by_cases hlen : 0 < (runTasks fetchOutcome ranges).2.length
    · rw [if_pos hlen] at h
      simp only [Except.error.injEq, GoDownloadError.rangesFailed.injEq] at h
      obtain ⟨hc, hf⟩ := h
      constructor
      · rw [← hc, ← runTasks_snd_map fetchOutcome ranges, List.length_map]
      · rw [← hf, runTasks_snd_map]
    · rw [if_neg hlen] at h
      exact absurd h (by simp)

theorem downloadRanges_best_effort_aggregation_witness :
    writtenRanges (downloadRanges
        (fun r => if r.Start = 0 then some "boom" else none) true
        [⟨0, 9⟩, ⟨20, 29⟩]).1
      = ([⟨0, 9⟩, ⟨20, 29⟩] : List RangeDownload).filter
          (fun r => ((fun r : RangeDownload =>
            if r.Start = 0 then some "boom" else none) r).isNone) :=
  (downloadRanges_best_effort_aggregation
    (fun r => if r.Start = 0 then some "boom" else none) [⟨0, 9⟩, ⟨20, 29⟩]).1

theorem provisionalRanges_characterisation_witness :
    provisionalRanges [("A", [])]
        ([⟨1, 0, "d", "A", "sfc", "t"⟩, ⟨2, 7, "d", "B", "sfc", "t"⟩] :
          List GFSParameter)
      = provisionalRangesSpec [("A", [])]
        ([⟨1, 0, "d", "A", "sfc", "t"⟩, ⟨2, 7, "d", "B", "sfc", "t"⟩] :
          List GFSParameter) :=
  (provisionalRanges_characterisation
    ([⟨1, 0, "d", "A", "sfc", "t"⟩, ⟨2, 7, "d", "B", "sfc", "t"⟩] :
      List GFSParameter) [("A", [])]).2

theorem parseIDXFile_skips_malformed_in_order_witness :
    parseIDXFile ["1:0:d=20240101:PRMSL:mean sea level:anl:", "short:line"]
      = Except.ok ((["1:0:d=20240101:PRMSL:mean sea level:anl:",
          "short:line"] : List String).filterMap parseIDXLine) :=
  (parseIDXFile_skips_malformed_in_order
    ["1:0:d=20240101:PRMSL:mean sea level:anl:", "short:line"]).1
